import Mathlib

/-!
Verification development for the `mewt` mutation-testing engine.

The tree-sitter facade is embedded shallowly: a syntax tree is an inductive
tree of nodes carrying kind, byte range, named/missing/error flags and an
optional field name (the field slot the node occupies in its parent).
Source text is a list of characters indexed by the same offsets the nodes
carry (one unit per byte of the original text).

The pattern primitives of `src/core/engine/patterns.rs`, the catalog
operations of `src/core/store.rs`, the outcome counters of
`src/core/cmds/results.rs` and `src/core/cmds/print/outcomes.rs`, the SARIF
assembly of `src/core/cmds/results.rs`, and `Target::mutate` of
`src/core/types/target.rs` are translated definitionally below.
-/

namespace Mewt

/-- Slice of the source between byte offsets `a` (inclusive) and `b`
(exclusive), the embedding of Rust's `&source[a..b]`. -/
def extract (source : List Char) (a b : Nat) : List Char :=
  (source.drop a).take (b - a)

/-- `utils.rs` `calculate_line_offset`: number of newline bytes strictly
before `byte_offset`. -/
def calculate_line_offset (source : List Char) (byte_offset : Nat) : Nat :=
  ((source.take byte_offset).filter (fun b => b == '\n')).length

/-- Data carried by a tree-sitter node: kind name, byte range, flags, and
the field name of the slot this node occupies in its parent. -/
structure NodeData where
  kind : String
  startB : Nat
  endB : Nat
  isNamed : Bool
  isMissing : Bool
  isError : Bool
  fieldN : Option String
  deriving DecidableEq, Repr

/-- A concrete syntax tree as exposed by the parser facade. -/
inductive TSNode where
  | mk (data : NodeData) (children : List TSNode)

namespace TSNode

def data : TSNode → NodeData
  | .mk d _ => d

def children : TSNode → List TSNode
  | .mk _ cs => cs

def kind (n : TSNode) : String := n.data.kind

def startB (n : TSNode) : Nat := n.data.startB

def endB (n : TSNode) : Nat := n.data.endB

@[simp] theorem data_mk (d : NodeData) (cs : List TSNode) : (TSNode.mk d cs).data = d := rfl

@[simp] theorem children_mk (d : NodeData) (cs : List TSNode) :
    (TSNode.mk d cs).children = cs := rfl

end TSNode

/-- `utils.rs` `node_text`: `&source[node.start_byte()..node.end_byte()]`. -/
def node_text (source : List Char) (n : TSNode) : List Char :=
  extract source n.startB n.endB

/-- Preorder traversal, pairing every node with its chain of ancestors up
to the traversal root (nearest first).  `visit_nodes_with_cursor` of
`utils.rs` invokes its callback on exactly these nodes in exactly this
order; the ancestor chain is what the parent-pointer walks of
`is_in_comment` and `has_ancestor_with_kind` observe. -/
def visitAll : TSNode → List (TSNode × List TSNode)
  | .mk d cs =>
    (TSNode.mk d cs, []) ::
      ((cs.attach.map (fun c => visitAll c.1)).flatten).map
        (fun x => (x.1, x.2 ++ [TSNode.mk d cs]))
termination_by t => sizeOf t
decreasing_by
  have := List.sizeOf_lt_of_mem c.2
  simp only [TSNode.mk.sizeOf_spec]
  omega

/-- `utils.rs` `is_in_comment`: the node itself or some ancestor has kind
`comment`. -/
def is_in_comment (n : TSNode) (anc : List TSNode) : Bool :=
  n.kind == "comment" || anc.any (fun p => p.kind == "comment")

/-- `patterns.rs` `has_ancestor_with_kind`: walk the parent chain looking
for a kind in `kinds`. -/
def has_ancestor_with_kind (anc : List TSNode) (kinds : List String) : Bool :=
  anc.any (fun p => kinds.contains p.kind)

/-- `patterns.rs` `is_punctuation_kind`. -/
def is_punctuation_kind (k : String) : Bool :=
  k == "(" || k == ")" || k == ","

/-- `patterns.rs` `is_keyword_kind`. -/
def is_keyword_kind (k : String) (keywords : List String) : Bool :=
  keywords.contains k

/-- tree-sitter `child_by_field_name`: the first child occupying the slot
named `fname`. -/
def child_by_field_name (n : TSNode) (fname : String) : Option TSNode :=
  n.children.find? (fun c => c.data.fieldN == some fname)

/-- `patterns.rs` `first_named_child_after_keyword`: the first child that is
neither missing, nor an error, nor of a keyword or punctuation kind, and is
named. -/
def first_named_child_after_keyword (n : TSNode) (keywords : List String) : Option TSNode :=
  n.children.find? (fun c =>
    !c.data.isMissing && !c.data.isError &&
    !is_keyword_kind c.kind keywords && !is_punctuation_kind c.kind && c.data.isNamed)

/-- The `{byte_offset, line_offset, old_text, new_text}` records the pattern
primitives emit. -/
structure PartialMutant where
  byte_offset : Nat
  line_offset : Nat
  old_text : List Char
  new_text : List Char
  deriving DecidableEq, Repr

/-- The body of `wrap`'s visitor callback, as a per-node decision. -/
def wrapAt (source : List Char) (node_kinds : List String) (pre suf : List Char)
    (n : TSNode) (anc : List TSNode) : Option PartialMutant :=
  if node_kinds.contains n.kind && !is_in_comment n anc
      && !has_ancestor_with_kind anc node_kinds then
    let old := node_text source n
    some { byte_offset := n.startB
           line_offset := calculate_line_offset source n.startB
           old_text := old
           new_text := pre ++ old ++ suf }
  else none

/-- `patterns.rs` `wrap`. -/
def wrap (root : TSNode) (source : List Char) (node_kinds : List String)
    (pre suf : List Char) : List PartialMutant :=
  (visitAll root).filterMap (fun x => wrapAt source node_kinds pre suf x.1 x.2)

/-- The body of `replace`'s visitor callback, as a per-node decision. -/
def replaceAt (source : List Char) (node_kinds : List String)
    (replacement_text : List Char) (should_replace : TSNode → List Char → Bool)
    (n : TSNode) (anc : List TSNode) : Option PartialMutant :=
  if node_kinds.contains n.kind && !is_in_comment n anc
      && !has_ancestor_with_kind anc node_kinds && should_replace n source then
    some { byte_offset := n.startB
           line_offset := calculate_line_offset source n.startB
           old_text := node_text source n
           new_text := replacement_text }
  else none

/-- `patterns.rs` `replace`. -/
def replace (root : TSNode) (source : List Char) (node_kinds : List String)
    (replacement_text : List Char) (should_replace : TSNode → List Char → Bool) :
    List PartialMutant :=
  (visitAll root).filterMap
    (fun x => replaceAt source node_kinds replacement_text should_replace x.1 x.2)

/-- The mutant `replace_condition` builds once it has located the condition
node: wrap the replacement in parentheses iff the original text, after
trimming surrounding whitespace, starts with `(` and ends with `)`. -/
def conditionMutant (source : List Char) (replacement : List Char)
    (cond : TSNode) : PartialMutant :=
  let old_text := node_text source cond
  let trimmed_start := old_text.dropWhile (fun c => c.isWhitespace)
  let trimmed_end := (old_text.reverse.dropWhile (fun c => c.isWhitespace)).reverse
  let needs_parens := trimmed_start.head? == some '(' && trimmed_end.getLast? == some ')'
  let new_text := if needs_parens then '(' :: (replacement ++ [')']) else replacement
  { byte_offset := cond.startB
    line_offset := calculate_line_offset source cond.startB
    old_text := old_text
    new_text := new_text }

/-- The body of `replace_condition`'s visitor callback. -/
def replaceConditionAt (source : List Char) (node_kind : String)
    (condition_field_name : String) (keyword_kinds : List String)
    (replacement : List Char) (n : TSNode) (anc : List TSNode) :
    Option PartialMutant :=
  if n.kind == node_kind && !is_in_comment n anc then
    match child_by_field_name n condition_field_name with
    | some field_node => some (conditionMutant source replacement field_node)
    | none =>
      match first_named_child_after_keyword n keyword_kinds with
      | some cond =>
        if cond.kind != ";" && cond.kind != "\x7b" then
          some (conditionMutant source replacement cond)
        else none
      | none => none
  else none

/-- `patterns.rs` `replace_condition`. -/
def replace_condition (root : TSNode) (source : List Char) (node_kind : String)
    (condition_field_name : String) (keyword_kinds : List String)
    (replacement : List Char) : List PartialMutant :=
  (visitAll root).filterMap
    (fun x => replaceConditionAt source node_kind condition_field_name
      keyword_kinds replacement x.1 x.2)

/-- The body of `swap_args`'s visitor callback: collect the non-punctuation
children of the arguments field and emit one mutant per adjacent pair. -/
def swapArgsAt (source : List Char) (node_kinds : List String)
    (args_field_name : String) (n : TSNode) (anc : List TSNode) :
    List PartialMutant :=
  if node_kinds.contains n.kind && !is_in_comment n anc then
    match child_by_field_name n args_field_name with
    | some args_node =>
      let args := args_node.children.filter
        (fun c => c.kind != "(" && c.kind != ")" && c.kind != ",")
      if args.length ≥ 2 then
        (args.zip args.tail).map (fun ab =>
          let a := ab.1
          let b := ab.2
          { byte_offset := a.startB
            line_offset := calculate_line_offset source a.startB
            old_text := extract source a.startB b.endB
            new_text := node_text source b ++ (", ".toList ++ node_text source a) })
      else []
    | none => []
  else []

/-- `patterns.rs` `swap_args`. -/
def swap_args (root : TSNode) (source : List Char) (node_kinds : List String)
    (args_field_name : String) : List PartialMutant :=
  (visitAll root).flatMap
    (fun x => swapArgsAt source node_kinds args_field_name x.1 x.2)

/-- Rust `str::contains` on character sequences. -/
def containsSeq (s pat : List Char) : Bool :=
  (List.range (s.length + 1)).any (fun i => pat.isPrefixOf (s.drop i))

/-- Rust `str::replace`: replace non-overlapping occurrences of `pat` left
to right (an empty pattern matches at every character boundary). -/
def strReplace (s pat dst : List Char) : List Char :=
  if pat.isEmpty then dst ++ s.flatMap (fun c => [c] ++ dst)
  else go s
where
  go : List Char → List Char
    | [] => []
    | c :: rest =>
      if pat.isPrefixOf (c :: rest) && !pat.isEmpty then
        dst ++ go ((c :: rest).drop pat.length)
      else c :: go rest
  termination_by l => l.length
  decreasing_by
    · rename_i h
      have h2 := ((Bool.and_eq_true _ _).mp h).2
      have : 1 ≤ pat.length := by
        cases pat with
        | nil => simp [List.isEmpty] at h2
        | cons x xs => simp
      simp only [List.length_drop, List.length_cons]
      omega
    · simp

/-- The full-node-mode body of `shuffle_impl` for one matched node: one
candidate mutant per option, matching by exact text (set size ≠ 2) or by
substring containment (set size = 2). -/
def shuffleFullAt (source : List Char) (options : List (List Char))
    (n : TSNode) : List PartialMutant :=
  let node_text_str := node_text source n
  options.flatMap (fun replacement =>
    let matchesB :=
      match options with
      | [o0, o1] => containsSeq node_text_str o0 || containsSeq node_text_str o1
      | _ => options.contains node_text_str
    if matchesB && replacement != node_text_str then
      let new_text :=
        match options with
        | [o0, o1] =>
          if containsSeq node_text_str o0 then strReplace node_text_str o0 replacement
          else strReplace node_text_str o1 replacement
        | _ => replacement
      if new_text != node_text_str then
        [{ byte_offset := n.startB
           line_offset := calculate_line_offset source n.startB
           old_text := node_text_str
           new_text := new_text }]
      else []
    else [])

/-- The token-mode body of `shuffle_impl` for one matched node: walk the
direct children, and for each child whose text is in the operator set emit
one mutant per other operator. -/
def shuffleTokensAt (source : List Char) (options : List (List Char))
    (n : TSNode) : List PartialMutant :=
  n.children.flatMap (fun child =>
    let token := node_text source child
    if options.contains token then
      options.filterMap (fun replacement =>
        if replacement != token then
          some { byte_offset := child.startB
                 line_offset := calculate_line_offset source child.startB
                 old_text := token
                 new_text := replacement }
        else none)
    else [])

/-- `patterns.rs` `shuffle_impl`. -/
def shuffle_impl (root : TSNode) (source : List Char) (node_kinds : List String)
    (options : List (List Char)) (full_node_mode : Bool) : List PartialMutant :=
  (visitAll root).flatMap (fun x =>
    if node_kinds.contains x.1.kind && !is_in_comment x.1 x.2 then
      if full_node_mode then shuffleFullAt source options x.1
      else shuffleTokensAt source options x.1
    else [])

/-- `patterns.rs` `shuffle_operators`. -/
def shuffle_operators (root : TSNode) (source : List Char)
    (expr_node_kinds : List String) (operators : List (List Char)) :
    List PartialMutant :=
  shuffle_impl root source expr_node_kinds operators false

/-- `patterns.rs` `shuffle_nodes`. -/
def shuffle_nodes (root : TSNode) (source : List Char)
    (node_kinds : List String) (alternatives : List (List Char)) :
    List PartialMutant :=
  shuffle_impl root source node_kinds alternatives true

/-- A target row (`src/core/types/target.rs` `Target`): the file hash is
kept abstract as its lower-case hex string. -/
structure Target where
  id : Int
  path : String
  file_hash : String
  text : List Char
  language : String
  deriving DecidableEq, Repr

/-- A mutant (`Mutant` of `src/core/types`). -/
structure Mutant where
  id : Int
  target_id : Int
  byte_offset : Nat
  line_offset : Nat
  old_text : List Char
  new_text : List Char
  mutation_slug : String
  deriving DecidableEq, Repr

/-- Modelled from the spec: `Mutant::from_partial` (the file defining
`Mutant` is not in the source tree; its callers in the language engines
are).  It attaches the owning target's id and the mutation slug to the
partial mutant's fields; the id is a placeholder until the row is stored. -/
def Mutant.from_partial (p : PartialMutant) (target : Target) (slug : String) : Mutant :=
  { id := 0
    target_id := target.id
    byte_offset := p.byte_offset
    line_offset := p.line_offset
    old_text := p.old_text
    new_text := p.new_text
    mutation_slug := slug }

namespace RustEngine

/-- Node-kind constants of `src/languages/rust/syntax.rs`. -/
def statement_kinds : List String :=
  ["expression_statement", "return_expression", "let_declaration",
   "if_expression", "while_expression", "for_expression"]

/-- The dispatch arm of `RustLanguageEngine::apply_all_mutations`
(`src/languages/rust/engine.rs`) for one mutation slug.  The `_` arm of the
Rust `match` panics on an unknown slug and therefore produces no mutants. -/
def dispatch (root : TSNode) (source : List Char) (slug : String) :
    List PartialMutant :=
  match slug with
  | "ER" =>
    replace root source statement_kinds "assert!(false);".toList
      (fun node src => !containsSeq (node_text src node) "assert!(".toList)
  | "CR" => wrap root source statement_kinds "/* ".toList " */".toList
  | "IF" => replace_condition root source "if_expression" "condition" ["if"] "false".toList
  | "IT" => replace_condition root source "if_expression" "condition" ["if"] "true".toList
  | "WF" => replace_condition root source "while_expression" "condition" ["while"] "false".toList
  | "RZ" => replace_condition root source "for_expression" "condition" ["for"] "0".toList
  | "AS" => swap_args root source ["call_expression", "call_expression"] "arguments"
  | "AOS" => shuffle_operators root source ["binary_expression"]
      ["+".toList, "-".toList, "*".toList, "/".toList]
  | "AAOS" => shuffle_operators root source ["binary_expression"]
      ["+=".toList, "-=".toList, "*=".toList, "/=".toList]
  | "BOS" => shuffle_operators root source ["binary_expression"]
      ["&".toList, "|".toList, "^".toList]
  | "BAOS" => shuffle_operators root source ["binary_expression"]
      ["&=".toList, "|=".toList, "^=".toList]
  | "BL" => shuffle_nodes root source ["boolean_literal"] ["true".toList, "false".toList]
  | "COS" => shuffle_operators root source ["binary_expression"]
      ["==".toList, "!=".toList, "<".toList, "<=".toList, ">".toList, ">=".toList]
  | "LOS" => shuffle_operators root source ["binary_expression"] ["&&".toList, "||".toList]
  | "SOS" => shuffle_operators root source ["binary_expression"] ["<<".toList, ">>".toList]
  | "SAOS" => shuffle_operators root source ["binary_expression"] ["<<=".toList, ">>=".toList]
  | "LC" => shuffle_nodes root source ["break_expression", "continue_expression"]
      ["break".toList, "continue".toList]
  | _ => []

/-- `RustLanguageEngine::apply_all_mutations`: parse the target's text
(`root` is the tree the parser produced for it) and run every configured
mutation's dispatch arm in order, tagging each partial mutant with the
slug. -/
def apply_all_mutations (target : Target) (root : TSNode) (slugs : List String) :
    List Mutant :=
  slugs.flatMap (fun slug =>
    (dispatch root target.text slug).map (fun p => Mutant.from_partial p target slug))

end RustEngine

/-- The in-memory image of the SQLite catalog: the `targets` and `mutants`
tables in rowid order, plus the next rowid each table would assign. -/
structure Catalog where
  targets : List Target
  mutants : List Mutant
  nextTargetId : Int
  nextMutantId : Int
  deriving Repr

/-- `SqlStore::add_target` (`src/core/store.rs`): look the hash up; on an
exact `(hash, path)` match return the existing id, on a hash match with a
different path update that row's path in place, otherwise insert. -/
def add_target (c : Catalog) (target : Target) : Int × Catalog :=
  match c.targets.find? (fun r => r.file_hash == target.file_hash) with
  | some record =>
    if record.path == target.path then (record.id, c)
    else
      (record.id,
       { c with targets := c.targets.map (fun r =>
           if r.id == record.id then { r with path := target.path } else r) })
  | none =>
    (c.nextTargetId,
     { c with
       targets := c.targets ++
         [{ id := c.nextTargetId, path := target.path, file_hash := target.file_hash,
            text := target.text, language := target.language }]
       nextTargetId := c.nextTargetId + 1 })

/-- The unique-tuple probe of `SqlStore::add_mutant`. -/
def mutantTupleMatches (m r : Mutant) : Bool :=
  r.target_id == m.target_id && r.byte_offset == m.byte_offset &&
  r.old_text == m.old_text && r.new_text == m.new_text &&
  r.mutation_slug == m.mutation_slug

/-- `SqlStore::add_mutant`: return `none` (no-op) if a row with the same
`(target_id, byte_offset, old_text, new_text, mutation_slug)` tuple exists,
else insert and return the new id. -/
def add_mutant (c : Catalog) (m : Mutant) : Option Int × Catalog :=
  match c.mutants.find? (mutantTupleMatches m) with
  | some _ => (none, c)
  | none =>
    (some c.nextMutantId,
     { c with
       mutants := c.mutants ++
         [{ m with id := c.nextMutantId }]
       nextMutantId := c.nextMutantId + 1 })

/-- Outcome status (`Status` of `src/core/types`; the five variants the
spec lists — `src/core/cmds/print/outcomes.rs` names `BuildFail`). -/
inductive Status where
  | TestFail
  | Uncaught
  | Timeout
  | Skipped
  | BuildFail
  deriving DecidableEq, Repr

/-- An outcome row. -/
structure Outcome where
  mutant_id : Int
  status : Status
  output : List Char
  time : String
  duration_ms : Nat
  deriving DecidableEq, Repr

/-- The rows the severity-stats SQL of `SqlStore::get_target_stats` and
`SqlStore::get_campaign_severity_stats` selects: `WHERE o.status IN
('TestFail', 'Uncaught')` over the joined `(mutation_slug, status)`
pairs. -/
def severitySqlFilter (rows : List (String × Status)) : List (String × Status) :=
  rows.filter (fun r => r.2 == Status.TestFail || r.2 == Status.Uncaught)

/-- One step of the accumulation loop both severity aggregations run: bump
the slug's eligible count, and its caught count when the status is
`TestFail`.  The `HashMap` is modelled as its lookup function. -/
def severityStep (acc : String → Nat × Nat) (r : String × Status) : String → Nat × Nat :=
  fun s =>
    if s = r.1 then
      ((acc r.1).1 + 1, if r.2 == Status.TestFail then (acc r.1).2 + 1 else (acc r.1).2)
    else acc s

/-- The accumulation loop both severity aggregations run over the selected
rows. -/
def severityFold (rows : List (String × Status)) : String → Nat × Nat :=
  rows.foldl severityStep (fun _ => (0, 0))

/-- `SqlStore::get_target_stats`' `severity_stats` map, as a function of
the target's joined `(mutation_slug, status)` rows. -/
def get_target_severity_stats (rows : List (String × Status)) : String → Nat × Nat :=
  severityFold (severitySqlFilter rows)

/-- `SqlStore::get_campaign_severity_stats`, as a function of the joined
`(mutation_slug, status)` rows of the whole catalog. -/
def get_campaign_severity_stats (rows : List (String × Status)) : String → Nat × Nat :=
  severityFold (severitySqlFilter rows)

/-- The caught/eligible tally of `src/core/cmds/results.rs`. -/
structure OutcomeCounter where
  eligible : Nat
  caught : Nat
  deriving DecidableEq, Repr

/-- `OutcomeCounter::record` of `src/core/cmds/results.rs`: everything but
`Skipped` is eligible; `TestFail` is caught. -/
def resultsRecord (c : OutcomeCounter) (status : Status) : OutcomeCounter :=
  if status ≠ Status.Skipped then
    { eligible := c.eligible + 1
      caught := if status = Status.TestFail then c.caught + 1 else c.caught }
  else c

/-- `OutcomeCounter::record` of `src/core/cmds/print/outcomes.rs`:
everything but `Skipped` and `BuildFail` is eligible; `TestFail` is
caught. -/
def printOutcomesRecord (c : OutcomeCounter) (status : Status) : OutcomeCounter :=
  if status ≠ Status.Skipped ∧ status ≠ Status.BuildFail then
    { eligible := c.eligible + 1
      caught := if status = Status.TestFail then c.caught + 1 else c.caught }
  else c

/-- Modelled from the spec: `Mutant::get_lines` (the file defining `Mutant`
is not in the source tree; `results.rs` and the line filters call it).  The
mutant's 1-based line span: it starts on line `line_offset + 1` and covers
the newlines contained in `old_text`. -/
def Mutant.get_lines (m : Mutant) : Nat × Nat :=
  (m.line_offset + 1, m.line_offset + 1 + (m.old_text.filter (fun c => c == '\n')).length)

/-- One SARIF result of `execute_results` (`src/core/cmds/results.rs`),
flattening the `message`/`locations` nesting to the fields the report
carries: `ruleId`, `level`, the message text, the artifact `uri` and the
region's `startLine`. -/
structure SarifResult where
  rule_id : String
  level : String
  message_text : List Char
  uri : String
  start_line : Nat
  deriving DecidableEq, Repr

/-- One SARIF run (the tool/driver metadata is constant and carries no
claim, so only the results are modelled). -/
structure SarifRun where
  results : List SarifResult
  deriving DecidableEq, Repr

/-- The SARIF report. -/
structure SarifReport where
  version : String
  schema : String
  runs : List SarifRun
  deriving DecidableEq, Repr

/-- The `"sarif"` arm of `execute_results`: keep only `Uncaught` outcomes
and map each to a result. -/
def sarifResults (data : List (Mutant × Target × Outcome)) : List SarifResult :=
  (data.filter (fun x => x.2.2.status == Status.Uncaught)).map (fun x =>
    let lines := x.1.get_lines
    { rule_id := x.1.mutation_slug
      level := "warning"
      message_text := "Uncaught mutant: '".toList ++ x.1.old_text
        ++ "' -> '".toList ++ x.1.new_text ++ "'".toList
      uri := x.2.1.path
      start_line := lines.1 })

/-- The SARIF report `execute_results` prints: version 2.1.0 and a single
run holding the uncaught-mutant results. -/
def sarifReport (data : List (Mutant × Target × Outcome)) : SarifReport :=
  { version := "2.1.0"
    schema := "https://json.schemastore.org/sarif-2.1.0.json"
    runs := [{ results := sarifResults data }] }

/-- Whether a byte sequence is valid UTF-8 (RFC 3629), the check
`String::from_utf8` performs.  Characters stand for bytes via `Char.toNat`. -/
def validUtf8 : List Char → Bool
  | [] => true
  | b :: rest =>
    let n := b.toNat
    if n ≤ 0x7F then validUtf8 rest
    else if 0xC2 ≤ n && n ≤ 0xDF then
      match rest with
      | c1 :: r => isCont c1 && validUtf8 r
      | [] => false
    else if n == 0xE0 then
      match rest with
      | c1 :: c2 :: r => (0xA0 ≤ c1.toNat && c1.toNat ≤ 0xBF) && isCont c2 && validUtf8 r
      | _ => false
    else if (0xE1 ≤ n && n ≤ 0xEC) || n == 0xEE || n == 0xEF then
      match rest with
      | c1 :: c2 :: r => isCont c1 && isCont c2 && validUtf8 r
      | _ => false
    else if n == 0xED then
      match rest with
      | c1 :: c2 :: r => (0x80 ≤ c1.toNat && c1.toNat ≤ 0x9F) && isCont c2 && validUtf8 r
      | _ => false
    else if n == 0xF0 then
      match rest with
      | c1 :: c2 :: c3 :: r =>
        (0x90 ≤ c1.toNat && c1.toNat ≤ 0xBF) && isCont c2 && isCont c3 && validUtf8 r
      | _ => false
    else if 0xF1 ≤ n && n ≤ 0xF3 then
      match rest with
      | c1 :: c2 :: c3 :: r => isCont c1 && isCont c2 && isCont c3 && validUtf8 r
      | _ => false
    else if n == 0xF4 then
      match rest with
      | c1 :: c2 :: c3 :: r =>
        (0x80 ≤ c1.toNat && c1.toNat ≤ 0x8F) && isCont c2 && isCont c3 && validUtf8 r
      | _ => false
    else false
where
  isCont (c : Char) : Bool := 0x80 ≤ c.toNat && c.toNat ≤ 0xBF

/-- The two error kinds `Target::mutate` can return: the target-id guard
(`InvalidInput`) and the `String::from_utf8` failure (`InvalidData`). -/
inductive MutateErr where
  | invalidInput
  | invalidData
  deriving DecidableEq, Repr

/-- `Target::mutate` (`src/core/types/target.rs`).  `none` models the panic
of the byte-range slicing when `byte_offset + |old_text|` exceeds the
text's length; otherwise the spliced bytes are returned when they are valid
UTF-8 and `InvalidData` when they are not.  Only the *length* of
`mutant.old_text` enters the computation. -/
def Target.mutate (t : Target) (mutant : Mutant) :
    Option (Except MutateErr (List Char)) :=
  if mutant.target_id ≠ t.id ∧ mutant.target_id ≠ 0 then
    some (Except.error MutateErr.invalidInput)
  else if t.text.length < mutant.byte_offset + mutant.old_text.length then
    none
  else
    let spliced := t.text.take mutant.byte_offset ++ mutant.new_text
      ++ t.text.drop (mutant.byte_offset + mutant.old_text.length)
    if validUtf8 spliced then some (Except.ok spliced)
    else some (Except.error MutateErr.invalidData)

/-! ## Slice alignment (edit validity) -/

/-- Taking `(extract s a b).length` units from `s.drop a` recovers
`extract s a b` itself. -/
theorem extract_recover (s : List Char) (a b : Nat) :
    (s.drop a).take (extract s a b).length = extract s a b := by
  unfold extract
  rw [List.length_take, List.take_eq_take]
  omega

/-- The slice of the source at `[a, a + |extract s a b|)` is
`extract s a b`. -/
theorem extract_self_slice (s : List Char) (a b : Nat) :
    extract s a (a + (extract s a b).length) = extract s a b := by
  show (s.drop a).take (a + (extract s a b).length - a) = _
  rw [Nat.add_sub_cancel_left]
  exact extract_recover s a b

/-- The slice of the source at the mutant's span recovers its `old_text`. -/
def sliceOk (source : List Char) (byte_offset : Nat) (old_text : List Char) : Prop :=
  extract source byte_offset (byte_offset + old_text.length) = old_text

theorem wrapAt_sliceOk {source K pre suf n anc m}
    (h : wrapAt source K pre suf n anc = some m) :
    sliceOk source m.byte_offset m.old_text := by
  unfold wrapAt at h
  split at h
  · cases h
    exact extract_self_slice source n.startB n.endB
  · cases h

theorem replaceAt_sliceOk {source K rep flt n anc m}
    (h : replaceAt source K rep flt n anc = some m) :
    sliceOk source m.byte_offset m.old_text := by
  unfold replaceAt at h
  split at h
  · cases h
    exact extract_self_slice source n.startB n.endB
  · cases h

theorem conditionMutant_sliceOk {source rep cond m}
    (h : conditionMutant source rep cond = m) :
    sliceOk source m.byte_offset m.old_text := by
  subst h
  exact extract_self_slice source cond.startB cond.endB

theorem replaceConditionAt_sliceOk {source k fld kws rep n anc m}
    (h : replaceConditionAt source k fld kws rep n anc = some m) :
    sliceOk source m.byte_offset m.old_text := by
  unfold replaceConditionAt at h
  split at h
  · split at h
    · cases h
      exact conditionMutant_sliceOk rfl
    · split at h
      · split at h
        · cases h
          exact conditionMutant_sliceOk rfl
        · cases h
      · cases h
  · cases h

theorem swapArgsAt_sliceOk {source K fld n anc m}
    (h : m ∈ swapArgsAt source K fld n anc) :
    sliceOk source m.byte_offset m.old_text := by
  unfold swapArgsAt at h
  split at h
  · split at h
    · simp only [] at h
      split at h
      · simp only [List.mem_map] at h
        obtain ⟨ab, _, hab⟩ := h
        subst hab
        exact extract_self_slice source ab.1.startB ab.2.endB
      · cases h
    · cases h
  · cases h

theorem shuffleFullAt_sliceOk {source options n m}
    (h : m ∈ shuffleFullAt source options n) :
    sliceOk source m.byte_offset m.old_text := by
  unfold shuffleFullAt at h
  simp only [List.mem_flatMap] at h
  obtain ⟨rep, _, h⟩ := h
  split at h
  · split at h
    · simp only [List.mem_singleton] at h
      subst h
      exact extract_self_slice source n.startB n.endB
    · cases h
  · cases h

theorem shuffleTokensAt_sliceOk {source options n m}
    (h : m ∈ shuffleTokensAt source options n) :
    sliceOk source m.byte_offset m.old_text := by
  unfold shuffleTokensAt at h
  simp only [List.mem_flatMap] at h
  obtain ⟨child, _, h⟩ := h
  split at h
  · simp only [List.mem_filterMap] at h
    obtain ⟨rep, _, h⟩ := h
    split at h
    · cases h
      exact extract_self_slice source child.startB child.endB
    · cases h
  · cases h

theorem wrap_sliceOk {root source K pre suf m}
    (h : m ∈ wrap root source K pre suf) :
    sliceOk source m.byte_offset m.old_text := by
  unfold wrap at h
  simp only [List.mem_filterMap] at h
  obtain ⟨x, _, hx⟩ := h
  exact wrapAt_sliceOk hx

theorem replace_sliceOk {root source K rep flt m}
    (h : m ∈ Mewt.replace root source K rep flt) :
    sliceOk source m.byte_offset m.old_text := by
  unfold Mewt.replace at h
  simp only [List.mem_filterMap] at h
  obtain ⟨x, _, hx⟩ := h
  exact replaceAt_sliceOk hx

theorem replace_condition_sliceOk {root source k fld kws rep m}
    (h : m ∈ replace_condition root source k fld kws rep) :
    sliceOk source m.byte_offset m.old_text := by
  unfold replace_condition at h
  simp only [List.mem_filterMap] at h
  obtain ⟨x, _, hx⟩ := h
  exact replaceConditionAt_sliceOk hx

theorem swap_args_sliceOk {root source K fld m}
    (h : m ∈ swap_args root source K fld) :
    sliceOk source m.byte_offset m.old_text := by
  unfold swap_args at h
  simp only [List.mem_flatMap] at h
  obtain ⟨x, _, hx⟩ := h
  exact swapArgsAt_sliceOk hx

theorem shuffle_impl_sliceOk {root source K options mode m}
    (h : m ∈ shuffle_impl root source K options mode) :
    sliceOk source m.byte_offset m.old_text := by
  unfold shuffle_impl at h
  simp only [List.mem_flatMap] at h
  obtain ⟨x, _, hx⟩ := h
  split at hx
  · split at hx
    · exact shuffleFullAt_sliceOk hx
    · exact shuffleTokensAt_sliceOk hx
  · cases hx

theorem dispatch_sliceOk {root source slug m}
    (h : m ∈ RustEngine.dispatch root source slug) :
    sliceOk source m.byte_offset m.old_text := by
  unfold RustEngine.dispatch at h
  split at h
  · exact replace_sliceOk h
  · exact wrap_sliceOk h
  · exact replace_condition_sliceOk h
  · exact replace_condition_sliceOk h
  · exact replace_condition_sliceOk h
  · exact replace_condition_sliceOk h
  · exact swap_args_sliceOk h
  · exact shuffle_impl_sliceOk h
  · exact shuffle_impl_sliceOk h
  · exact shuffle_impl_sliceOk h
  · exact shuffle_impl_sliceOk h
  · exact shuffle_impl_sliceOk h
  · exact shuffle_impl_sliceOk h
  · exact shuffle_impl_sliceOk h
  · exact shuffle_impl_sliceOk h
  · exact shuffle_impl_sliceOk h
  · exact shuffle_impl_sliceOk h
  · cases h

/-- C1.  For every target whose text parses (to tree `root`) and every
mutant the Rust engine's `apply_all_mutations` produces — hence every
mutant any of the pattern primitives emits — the slice of the target's
text at `[byte_offset, byte_offset + |old_text|)` equals the mutant's
`old_text`. -/
theorem mewt_C1_edit_validity (target : Target) (root : TSNode)
    (slugs : List String) (m : Mutant)
    (hm : m ∈ RustEngine.apply_all_mutations target root slugs) :
    extract target.text m.byte_offset (m.byte_offset + m.old_text.length) = m.old_text := by
  unfold RustEngine.apply_all_mutations at hm
  simp only [List.mem_flatMap, List.mem_map] at hm
  obtain ⟨slug, _, p, hp, hmp⟩ := hm
  subst hmp
  exact dispatch_sliceOk hp

/-! ## Concrete example trees -/

/-- A childless node with default flags. -/
def leaf (k : String) (s e : Nat) : TSNode :=
  .mk { kind := k, startB := s, endB := e, isNamed := true, isMissing := false,
        isError := false, fieldN := none } []

/-- An inner node with default flags. -/
def branch (k : String) (s e : Nat) (cs : List TSNode) : TSNode :=
  .mk { kind := k, startB := s, endB := e, isNamed := true, isMissing := false,
        isError := false, fieldN := none } cs

/-- An inner node occupying the parent's field `f`. -/
def fieldBranch (f k : String) (s e : Nat) (cs : List TSNode) : TSNode :=
  .mk { kind := k, startB := s, endB := e, isNamed := true, isMissing := false,
        isError := false, fieldN := some f } cs

/-- The tree of `a+b`: a binary expression over two identifiers. -/
def sampleSource : List Char := "a+b".toList

def sampleTree : TSNode :=
  branch "source_file" 0 3
    [branch "binary_expression" 0 3
      [leaf "identifier" 0 1, leaf "+" 1 2, leaf "identifier" 2 3]]

def sampleTarget : Target :=
  { id := 1, path := "t.rs", file_hash := "h", text := sampleSource, language := "Rust" }

/-- C1 witness input: the first `AOS` mutant of `a+b`. -/
theorem mewt_C1_witness :
    ({ id := 0, target_id := 1, byte_offset := 1, line_offset := 0,
       old_text := "+".toList, new_text := "-".toList, mutation_slug := "AOS" } : Mutant)
        ∈ RustEngine.apply_all_mutations sampleTarget sampleTree ["AOS"] ∧
    extract sampleTarget.text 1 (1 + ("+".toList).length) = "+".toList :=
  have hm :
      ({ id := 0, target_id := 1, byte_offset := 1, line_offset := 0,
         old_text := "+".toList, new_text := "-".toList, mutation_slug := "AOS" } : Mutant)
        ∈ RustEngine.apply_all_mutations sampleTarget sampleTree ["AOS"] := by
    simp +decide [RustEngine.apply_all_mutations, RustEngine.dispatch, shuffle_operators,
      shuffle_impl, shuffleTokensAt, visitAll, sampleTree, sampleTarget, sampleSource,
      leaf, branch, is_in_comment, node_text, extract, calculate_line_offset,
      Mutant.from_partial, TSNode.kind, TSNode.startB, TSNode.endB, TSNode.children,
      TSNode.data]
  ⟨hm, mewt_C1_edit_validity sampleTarget sampleTree ["AOS"] _ hm⟩

/-! ## C3: ancestor exclusion for wrap / replace -/

/-- C3.  `wrap` and `replace` emit a mutant for a node only if no strict
ancestor of that node has a kind in the same set: whenever some ancestor's
kind lies in `node_kinds`, the per-node emission functions (through which
`wrap` and `replace` produce every mutant, by definition via `filterMap`
over `visitAll`) yield nothing for that node.  Consequently an outer node
and an inner node whose kinds both lie in the set never both yield mutants
for the same slug on the same file: the inner one yields none. -/
theorem mewt_C3_ancestor_exclusion (source : List Char) (K : List String)
    (pre suf rep : List Char) (flt : TSNode → List Char → Bool)
    (inner outer : TSNode) (anc : List TSNode)
    (houter : outer ∈ anc) (hkind : K.contains outer.kind = true) :
    wrapAt source K pre suf inner anc = none ∧
    replaceAt source K rep flt inner anc = none := by
  have hanc : has_ancestor_with_kind anc K = true := by
    unfold has_ancestor_with_kind
    rw [List.any_eq_true]
    exact ⟨outer, houter, hkind⟩
  refine ⟨?_, ?_⟩
  · unfold wrapAt
    rw [hanc]
    simp
  · unfold replaceAt
    rw [hanc]
    simp

/-- C3 witness: an inner `expression_statement` below an `if_expression`
(the spec's `if (x) { y; }` example), both kinds in the set. -/
theorem mewt_C3_witness :
    wrapAt "if (x) { y; }".toList ["if_expression", "expression_statement"]
        "/* ".toList " */".toList (leaf "expression_statement" 9 11)
        [branch "if_expression" 0 13 []] = none ∧
    replaceAt "if (x) { y; }".toList ["if_expression", "expression_statement"]
        "assert!(false);".toList (fun _ _ => true) (leaf "expression_statement" 9 11)
        [branch "if_expression" 0 13 []] = none :=
  mewt_C3_ancestor_exclusion "if (x) { y; }".toList
    ["if_expression", "expression_statement"] "/* ".toList " */".toList
    "assert!(false);".toList (fun _ _ => true)
    (leaf "expression_statement" 9 11) (branch "if_expression" 0 13 [])
    [branch "if_expression" 0 13 []] (List.mem_singleton.mpr rfl) (by decide)

/-! ## C4: identity edits -/

/-- The call tree of `f(a, a)`: two adjacent arguments with identical
text, separated by exactly `", "` in the source. -/
def identicalArgsSource : List Char := "f(a, a)".toList

def identicalArgsTree : TSNode :=
  branch "source_file" 0 7
    [branch "call_expression" 0 7
      [leaf "identifier" 0 1,
       fieldBranch "arguments" "arguments" 1 7
         [leaf "(" 1 2, leaf "identifier" 2 3, leaf "," 3 4,
          leaf "identifier" 5 6, leaf ")" 6 7]]]

/-- C4 counterexample: `swap_args` on `f(a, a)` emits a partial mutant
whose `new_text` equals its `old_text` (`"a, a"` both ways) — the primitive
performs no identity check. -/
theorem mewt_C4_counterexample :
    ∃ m ∈ swap_args identicalArgsTree identicalArgsSource
        ["call_expression"] "arguments", m.new_text = m.old_text := by
  simp +decide [swap_args, swapArgsAt, visitAll, identicalArgsTree, identicalArgsSource,
    leaf, branch, fieldBranch, is_in_comment, node_text, extract, calculate_line_offset,
    child_by_field_name, TSNode.kind, TSNode.startB, TSNode.endB, TSNode.children,
    TSNode.data]

/-- C4 amended.  Only `shuffle_impl` (hence `shuffle_operators` and
`shuffle_nodes`) guards against identity edits: no mutant it emits has
`new_text` equal to `old_text`.  `wrap`, `replace`, `replace_condition` and
`swap_args` perform no such check. -/
theorem mewt_C4_no_identity_shuffles {root : TSNode} {source : List Char}
    {K : List String} {options : List (List Char)} {mode : Bool}
    {m : PartialMutant} (h : m ∈ shuffle_impl root source K options mode) :
    m.new_text ≠ m.old_text := by
  unfold shuffle_impl at h
  simp only [List.mem_flatMap] at h
  obtain ⟨x, _, hx⟩ := h
  split at hx
  · split at hx
    · unfold shuffleFullAt at hx
      simp only [List.mem_flatMap] at hx
      obtain ⟨rep, _, hx⟩ := hx
      split at hx
      · split at hx
        · rename_i hne
          simp only [List.mem_singleton] at hx
          subst hx
          simpa using hne
        · cases hx
      · cases hx
    · unfold shuffleTokensAt at hx
      simp only [List.mem_flatMap] at hx
      obtain ⟨child, _, hx⟩ := hx
      split at hx
      · simp only [List.mem_filterMap] at hx
        obtain ⟨rep, _, hx⟩ := hx
        split at hx
        · rename_i hne
          cases hx
          simpa using hne
        · cases hx
      · cases hx
  · cases hx

/-- C4 witness for the amended claim: a concrete `AOS`-style shuffle
emission with distinct texts. -/
theorem mewt_C4_witness :
    ({ byte_offset := 1, line_offset := 0, old_text := "+".toList,
       new_text := "-".toList } : PartialMutant)
        ∈ shuffle_impl sampleTree sampleSource ["binary_expression"]
          ["+".toList, "-".toList, "*".toList, "/".toList] false ∧
    ("-".toList : List Char) ≠ "+".toList :=
  have hm :
      ({ byte_offset := 1, line_offset := 0, old_text := "+".toList,
         new_text := "-".toList } : PartialMutant)
        ∈ shuffle_impl sampleTree sampleSource ["binary_expression"]
          ["+".toList, "-".toList, "*".toList, "/".toList] false := by
    simp +decide [shuffle_impl, shuffleTokensAt, visitAll, sampleTree, sampleSource,
      leaf, branch, is_in_comment, node_text, extract, calculate_line_offset,
      TSNode.kind, TSNode.startB, TSNode.endB, TSNode.children, TSNode.data]
  ⟨hm, mewt_C4_no_identity_shuffles hm⟩

/-! ## C5: condition parenthesization -/

/-- Dropping a prefix of `p`-satisfying characters from a list whose head
falsifies `p` is the identity. -/
theorem dropWhile_eq_self_of_head {p : Char → Bool} {l : List Char} {c : Char}
    (h : l.head? = some c) (hc : p c = false) : l.dropWhile p = l := by
  cases l with
  | nil => cases h
  | cons a t =>
    have ha : a = c := by simpa using h
    subst ha
    rw [List.dropWhile_cons, hc]
    simp

/-- The condition's text carries no surrounding whitespace (true of every
tree-sitter node, whose span is token-aligned); under it the `trim_start` /
`trim_end` of `replace_condition` are the identity. -/
def trimIsSelf (l : List Char) : Prop :=
  l.dropWhile (fun c => c.isWhitespace) = l ∧
  (l.reverse.dropWhile (fun c => c.isWhitespace)).reverse = l

theorem conditionMutant_parens_spec (source rep : List Char) (cond : TSNode) :
    (((node_text source cond).head? = some '(' ∧
        (node_text source cond).getLast? = some ')') →
      (conditionMutant source rep cond).new_text = '(' :: (rep ++ [')'])) ∧
    (trimIsSelf (node_text source cond) →
      ¬((node_text source cond).head? = some '(' ∧
        (node_text source cond).getLast? = some ')') →
      (conditionMutant source rep cond).new_text = rep) := by
  constructor
  · rintro ⟨h1, h2⟩
    have e1 : (node_text source cond).dropWhile (fun c => c.isWhitespace)
        = node_text source cond :=
      dropWhile_eq_self_of_head h1 (by decide)
    have h2r : (node_text source cond).reverse.head? = some ')' := by
      rw [List.head?_reverse]; exact h2
    have e2 : (node_text source cond).reverse.dropWhile (fun c => c.isWhitespace)
        = (node_text source cond).reverse :=
      dropWhile_eq_self_of_head h2r (by decide)
    simp only [conditionMutant, e1, e2, List.reverse_reverse, h1, h2]
    simp
  · rintro ⟨t1, t2⟩ hno
    simp only [conditionMutant, t1, t2]
    have : ((node_text source cond).head? == some '(' &&
        (node_text source cond).getLast? == some ')') = false := by
      rcases h1 : (node_text source cond).head? == some '(' with _ | _
      · simp
      · rcases h2 : (node_text source cond).getLast? == some ')' with _ | _
        · simp
        · exact absurd ⟨eq_of_beq h1, eq_of_beq h2⟩ hno
    simp [this]

/-- The mutants `replace_condition` emits all come from `conditionMutant`
applied to some condition node. -/
theorem replace_condition_shape {root : TSNode} {source : List Char}
    {k fld : String} {kws : List String} {rep : List Char} {m : PartialMutant}
    (h : m ∈ replace_condition root source k fld kws rep) :
    ∃ cond, m = conditionMutant source rep cond := by
  unfold replace_condition at h
  simp only [List.mem_filterMap] at h
  obtain ⟨x, _, hx⟩ := h
  unfold replaceConditionAt at hx
  split at hx
  · split at hx
    · cases hx; exact ⟨_, rfl⟩
    · split at hx
      · split at hx
        · cases hx; exact ⟨_, rfl⟩
        · cases hx
      · cases hx
  · cases hx

/-- C5.  Every mutant `replace_condition` emits carries the replacement
wrapped in parentheses when the original condition text starts with `(` and
ends with `)`; when it does not (and, as for every parser node, the text
carries no surrounding whitespace), the bare replacement is emitted. -/
theorem mewt_C5_condition_parens {root : TSNode} {source : List Char}
    {k fld : String} {kws : List String} {rep : List Char} {m : PartialMutant}
    (h : m ∈ replace_condition root source k fld kws rep) :
    ((m.old_text.head? = some '(' ∧ m.old_text.getLast? = some ')') →
      m.new_text = '(' :: (rep ++ [')'])) ∧
    (trimIsSelf m.old_text →
      ¬(m.old_text.head? = some '(' ∧ m.old_text.getLast? = some ')') →
      m.new_text = rep) := by
  obtain ⟨cond, hm⟩ := replace_condition_shape h
  subst hm
  have hold : (conditionMutant source rep cond).old_text = node_text source cond := rfl
  rw [hold]
  exact conditionMutant_parens_spec source rep cond

/-- The tree of `if (x == 0) { }`, a parenthesized condition in the
`condition` field. -/
def ifParenSource : List Char := "if (x == 0) { }".toList

def ifParenTree : TSNode :=
  branch "source_file" 0 15
    [branch "if_expression" 0 15
      [leaf "if" 0 2,
       fieldBranch "condition" "parenthesized_expression" 3 11 [],
       branch "block" 12 15 []]]

/-- C5 witness: the `IF`-style replacement of `(x == 0)` by `false` yields
`(false)`, not `false`. -/
theorem mewt_C5_witness :
    ({ byte_offset := 3, line_offset := 0, old_text := "(x == 0)".toList,
       new_text := '(' :: ("false".toList ++ [')']) } : PartialMutant)
        ∈ replace_condition ifParenTree ifParenSource "if_expression"
          "condition" ["if"] "false".toList ∧
    ({ byte_offset := 3, line_offset := 0, old_text := "(x == 0)".toList,
       new_text := '(' :: ("false".toList ++ [')']) } : PartialMutant).new_text
      = "(false)".toList :=
  have hm :
      ({ byte_offset := 3, line_offset := 0, old_text := "(x == 0)".toList,
         new_text := '(' :: ("false".toList ++ [')']) } : PartialMutant)
        ∈ replace_condition ifParenTree ifParenSource "if_expression"
          "condition" ["if"] "false".toList := by
    simp +decide [replace_condition, replaceConditionAt, conditionMutant, visitAll,
      ifParenTree, ifParenSource, leaf, branch, fieldBranch, is_in_comment,
      node_text, extract, calculate_line_offset, child_by_field_name,
      first_named_child_after_keyword, TSNode.kind, TSNode.startB, TSNode.endB,
      TSNode.children, TSNode.data]
  ⟨hm, ((mewt_C5_condition_parens hm).1 ⟨by decide, by decide⟩).trans (by decide)⟩

/-! ## C6, C7: catalog upserts -/

/-- C6.  `add_target` with a target whose `file_hash` already exists in the
catalog under a different path updates that row's path in place and returns
the existing row's id — no row is inserted and the stored hash, text and
language are untouched.  With a fresh hash it inserts a new row and returns
its id. -/
theorem mewt_C6_add_target (c : Catalog) (t : Target) :
    (∀ r, c.targets.find? (fun row => row.file_hash == t.file_hash) = some r →
        r.path ≠ t.path →
        (add_target c t).1 = r.id ∧
        (add_target c t).2.targets =
          c.targets.map (fun row =>
            if row.id == r.id then { row with path := t.path } else row) ∧
        (add_target c t).2.mutants = c.mutants) ∧
    (c.targets.find? (fun row => row.file_hash == t.file_hash) = none →
        (add_target c t).1 = c.nextTargetId ∧
        (add_target c t).2.targets = c.targets ++
          [{ id := c.nextTargetId, path := t.path, file_hash := t.file_hash,
             text := t.text, language := t.language }] ∧
        (add_target c t).2.mutants = c.mutants) := by
  constructor
  · intro r hfind hpath
    have hbeq : (r.path == t.path) = false := by
      rw [beq_eq_false_iff_ne]
      exact hpath
    unfold add_target
    rw [hfind]
    simp [hbeq]
  · intro hfind
    unfold add_target
    rw [hfind]
    simp

/-- C6 witness: the catalog-relocation scenario — `a/x` moves to `b/x`
under hash `H`, keeping id 1 and row count 1; a fresh hash `H2` inserts
row id 2. -/
theorem mewt_C6_witness :
    ((add_target
        { targets := [{ id := 1, path := "a/x", file_hash := "H",
                        text := "t".toList, language := "Rust" }],
          mutants := [], nextTargetId := 2, nextMutantId := 1 }
        { id := 0, path := "b/x", file_hash := "H",
          text := "t".toList, language := "Rust" }).1 = 1 ∧
      (add_target
        { targets := [{ id := 1, path := "a/x", file_hash := "H",
                        text := "t".toList, language := "Rust" }],
          mutants := [], nextTargetId := 2, nextMutantId := 1 }
        { id := 0, path := "b/x", file_hash := "H",
          text := "t".toList, language := "Rust" }).2.targets =
        List.map (fun row =>
            if row.id == 1 then { row with path := "b/x" } else row)
          [{ id := 1, path := "a/x", file_hash := "H",
             text := "t".toList, language := "Rust" }] ∧
      (add_target
        { targets := [{ id := 1, path := "a/x", file_hash := "H",
                        text := "t".toList, language := "Rust" }],
          mutants := [], nextTargetId := 2, nextMutantId := 1 }
        { id := 0, path := "b/x", file_hash := "H",
          text := "t".toList, language := "Rust" }).2.mutants = []) :=
  (mewt_C6_add_target _ _).1
    { id := 1, path := "a/x", file_hash := "H", text := "t".toList, language := "Rust" }
    (by decide) (by decide)

/-- C7.  `add_mutant` is idempotent on
`(target_id, byte_offset, old_text, new_text, mutation_slug)`: when a row
with that tuple exists the call returns `none` and the catalog is
unchanged; otherwise exactly one row is inserted and its fresh id
returned. -/
theorem mewt_C7_add_mutant (c : Catalog) (m : Mutant) :
    ((∃ r ∈ c.mutants, mutantTupleMatches m r = true) →
        (add_mutant c m).1 = none ∧ (add_mutant c m).2 = c) ∧
    (c.mutants.find? (mutantTupleMatches m) = none →
        (add_mutant c m).1 = some c.nextMutantId ∧
        (add_mutant c m).2.mutants = c.mutants ++ [{ m with id := c.nextMutantId }] ∧
        (add_mutant c m).2.targets = c.targets) := by
  constructor
  · intro hex
    obtain ⟨r, hr, hmatch⟩ := hex
    have hsome : (c.mutants.find? (mutantTupleMatches m)).isSome :=
      List.find?_isSome.mpr ⟨r, hr, hmatch⟩
    obtain ⟨r', hfind⟩ := Option.isSome_iff_exists.mp hsome
    unfold add_mutant
    rw [hfind]
    simp
  · intro hfind
    unfold add_mutant
    rw [hfind]
    simp

/-- C7 witness: re-inserting the tuple of an existing row (even with a
different `line_offset`, which is not part of the tuple) is a no-op; a
fresh tuple is inserted under the next id. -/
theorem mewt_C7_witness :
    ((add_mutant
        { targets := [], nextTargetId := 1, nextMutantId := 2,
          mutants := [{ id := 1, target_id := 10, byte_offset := 2, line_offset := 0,
                        old_text := "a".toList, new_text := "b".toList,
                        mutation_slug := "ER" }] }
        { id := 0, target_id := 10, byte_offset := 2, line_offset := 5,
          old_text := "a".toList, new_text := "b".toList, mutation_slug := "ER" }).1
      = none ∧
     (add_mutant
        { targets := [], nextTargetId := 1, nextMutantId := 2,
          mutants := [{ id := 1, target_id := 10, byte_offset := 2, line_offset := 0,
                        old_text := "a".toList, new_text := "b".toList,
                        mutation_slug := "ER" }] }
        { id := 0, target_id := 10, byte_offset := 2, line_offset := 5,
          old_text := "a".toList, new_text := "b".toList, mutation_slug := "ER" }).2
      = { targets := [], nextTargetId := 1, nextMutantId := 2,
          mutants := [{ id := 1, target_id := 10, byte_offset := 2, line_offset := 0,
                        old_text := "a".toList, new_text := "b".toList,
                        mutation_slug := "ER" }] }) :=
  (mewt_C7_add_mutant _ _).1
    ⟨{ id := 1, target_id := 10, byte_offset := 2, line_offset := 0,
       old_text := "a".toList, new_text := "b".toList, mutation_slug := "ER" },
     by decide, by decide⟩

/-! ## C8: catch-rate aggregation -/

/-- The severity fold computes, for each slug, the number of selected rows
with that slug and the number of those that are `TestFail`. -/
theorem severityFold_go (rows : List (String × Status)) (acc : String → Nat × Nat)
    (s : String) :
    rows.foldl severityStep acc s =
      ((acc s).1 + (rows.filter (fun r => r.1 == s)).length,
       (acc s).2 + (rows.filter (fun r => r.1 == s && r.2 == Status.TestFail)).length) := by
  induction rows generalizing acc with
  | nil => simp
  | cons r rows ih =>
    rw [List.foldl_cons, ih]
    by_cases hs : s = r.1
    · subst hs
      by_cases hTF : (r.2 == Status.TestFail) = true
      · simp [severityStep, hTF, Prod.ext_iff]
        and_intros <;> omega
      · have hTF' : (r.2 == Status.TestFail) = false := by
          cases h : (r.2 == Status.TestFail)
          · rfl
          · exact absurd h hTF
        simp [severityStep, hTF', Prod.ext_iff]
        and_intros <;> omega
    · have hb : (r.1 == s) = false := by
        rw [beq_eq_false_iff_ne]
        exact fun he => hs he.symm
      simp [severityStep, hs, hb]

/-- C8 counterexample: the `OutcomeCounter` of `results.rs` counts a
`Timeout` outcome as eligible (denominator grows by 1), although `Timeout`
is neither `TestFail` nor `Uncaught` — the claim's "eligible iff TestFail
or Uncaught" fails for the per-target counters of the results command. -/
theorem mewt_C8_counterexample :
    (resultsRecord { eligible := 0, caught := 0 } Status.Timeout).eligible = 1 ∧
    Status.Timeout ≠ Status.TestFail ∧ Status.Timeout ≠ Status.Uncaught := by
  decide

/-- C8 amended.  The severity-stats aggregations (`get_target_stats` and
`get_campaign_severity_stats`) count a mutant as eligible iff its status is
`TestFail` or `Uncaught` and as caught iff it is `TestFail`; but the
per-target `OutcomeCounter` printed by the results command counts eligible
iff the status is not `Skipped` (`results.rs`) resp. neither `Skipped` nor
`BuildFail` (`print/outcomes.rs`) — so `Timeout` outcomes do enter those
denominators.  Caught means `TestFail` everywhere. -/
theorem mewt_C8_aggregation (rows : List (String × Status)) (slug : String)
    (cnt : OutcomeCounter) (st : Status) :
    (get_target_severity_stats rows slug).1 =
      (rows.filter (fun r =>
        r.1 == slug && (r.2 == Status.TestFail || r.2 == Status.Uncaught))).length ∧
    (get_target_severity_stats rows slug).2 =
      (rows.filter (fun r => r.1 == slug && r.2 == Status.TestFail)).length ∧
    get_campaign_severity_stats rows slug = get_target_severity_stats rows slug ∧
    (resultsRecord cnt st).eligible =
      cnt.eligible + (if st ≠ Status.Skipped then 1 else 0) ∧
    (resultsRecord cnt st).caught =
      cnt.caught + (if st = Status.TestFail then 1 else 0) ∧
    (printOutcomesRecord cnt st).eligible =
      cnt.eligible + (if st ≠ Status.Skipped ∧ st ≠ Status.BuildFail then 1 else 0) ∧
    (printOutcomesRecord cnt st).caught =
      cnt.caught + (if st = Status.TestFail then 1 else 0) := by
  have hgo := severityFold_go (severitySqlFilter rows) (fun _ => (0, 0)) slug
  have h1 : (severitySqlFilter rows).filter (fun r => r.1 == slug) =
      rows.filter (fun r =>
        r.1 == slug && (r.2 == Status.TestFail || r.2 == Status.Uncaught)) := by
    unfold severitySqlFilter
    rw [List.filter_filter]
  have h2 : (severitySqlFilter rows).filter
        (fun r => r.1 == slug && r.2 == Status.TestFail) =
      rows.filter (fun r => r.1 == slug && r.2 == Status.TestFail) := by
    unfold severitySqlFilter
    rw [List.filter_filter]
    refine List.filter_congr (fun a _ => ?_)
    rcases a with ⟨s, stt⟩
    cases stt <;> simp
  refine ⟨?_, ?_, rfl, ?_, ?_, ?_, ?_⟩
  · show (severityFold (severitySqlFilter rows) slug).1 = _
    unfold severityFold
    rw [hgo, h1]
    simp
  · show (severityFold (severitySqlFilter rows) slug).2 = _
    unfold severityFold
    rw [hgo, h2]
    simp
  · cases st <;> simp [resultsRecord]
  · cases st <;> simp [resultsRecord]
  · cases st <;> simp [printOutcomesRecord]
  · cases st <;> simp [printOutcomesRecord]

/-! ## C9: SARIF shape -/

/-- C9.  The SARIF rendering contains exactly one run; that run holds one
result per `Uncaught` outcome and none for any other status; every result
carries the mutant's slug as `ruleId`, level `"warning"`, the
`Uncaught mutant: '<old>' -> '<new>'` message, the target's path as `uri`,
and a 1-based `startLine`. -/
theorem mewt_C9_sarif (data : List (Mutant × Target × Outcome)) :
    (sarifReport data).runs.length = 1 ∧
    ∀ run ∈ (sarifReport data).runs,
      run.results.length =
        (data.filter (fun x => x.2.2.status == Status.Uncaught)).length ∧
      ∀ res ∈ run.results, ∃ x ∈ data,
        x.2.2.status = Status.Uncaught ∧
        res.rule_id = x.1.mutation_slug ∧
        res.level = "warning" ∧
        res.message_text = "Uncaught mutant: '".toList ++ x.1.old_text
          ++ "' -> '".toList ++ x.1.new_text ++ "'".toList ∧
        res.uri = x.2.1.path ∧
        res.start_line = x.1.get_lines.1 ∧
        1 ≤ res.start_line := by
  refine ⟨rfl, ?_⟩
  intro run hrun
  have hr : run = { results := sarifResults data } := by
    simpa [sarifReport] using hrun
  subst hr
  constructor
  · simp [sarifResults]
  · intro res hres
    simp only [sarifResults, List.mem_map] at hres
    obtain ⟨x, hx, hres⟩ := hres
    rw [List.mem_filter] at hx
    refine ⟨x, hx.1, by simpa using hx.2, ?_, ?_, ?_, ?_, ?_, ?_⟩ <;>
      subst hres <;> simp [Mutant.get_lines]

/-! ## C10: Target::mutate -/

/-- C10.  `Target::mutate` validates nothing beyond the target-id guard: an
id mismatch errors out; when `byte_offset + |old_text|` exceeds the text
length the byte slicing panics (modelled `none`); under the in-bounds
precondition the function is total, returning the splice
`text[..byte_offset] ++ new_text ++ text[byte_offset + |old_text|..]` when
it is valid UTF-8 and an error otherwise; and `old_text` enters only
through its length — its content is never compared with the text actually
present at the span. -/
theorem mewt_C10_mutate (t : Target) (mutant : Mutant) :
    ((mutant.target_id ≠ t.id ∧ mutant.target_id ≠ 0) →
      t.mutate mutant = some (Except.error MutateErr.invalidInput)) ∧
    (¬(mutant.target_id ≠ t.id ∧ mutant.target_id ≠ 0) →
      (t.text.length < mutant.byte_offset + mutant.old_text.length →
        t.mutate mutant = none) ∧
      (mutant.byte_offset + mutant.old_text.length ≤ t.text.length →
        t.mutate mutant =
          some (if validUtf8 (t.text.take mutant.byte_offset ++ mutant.new_text
              ++ t.text.drop (mutant.byte_offset + mutant.old_text.length)) then
            Except.ok (t.text.take mutant.byte_offset ++ mutant.new_text
              ++ t.text.drop (mutant.byte_offset + mutant.old_text.length))
          else Except.error MutateErr.invalidData))) ∧
    (∀ m2 : Mutant, m2.target_id = mutant.target_id →
      m2.byte_offset = mutant.byte_offset → m2.new_text = mutant.new_text →
      m2.old_text.length = mutant.old_text.length →
      t.mutate m2 = t.mutate mutant) := by
  refine ⟨?_, ?_, ?_⟩
  · intro hguard
    unfold Target.mutate
    rw [if_pos hguard]
  · intro hguard
    constructor
    · intro hlen
      unfold Target.mutate
      rw [if_neg hguard, if_pos hlen]
    · intro hlen
      unfold Target.mutate
      rw [if_neg hguard, if_neg (by omega)]
      split <;> simp_all
  · intro m2 hid hoff hnew holdlen
    unfold Target.mutate
    rw [hid, hoff, hnew, holdlen]

/-! ## C2: comment immunity — span geometry -/

/-- Two half-open byte ranges `[a, b)` and `[c, d)` intersect. -/
def Overlap (a b c d : Nat) : Prop :=
  max a c < min b d

instance (a b c d : Nat) : Decidable (Overlap a b c d) := by
  unfold Overlap; infer_instance

/-- Consecutive children's spans are ordered: each ends no later than the
next starts. -/
def orderedSpans : List TSNode → Bool
  | a :: b :: rest => decide (a.endB ≤ b.startB) && orderedSpans (b :: rest)
  | _ => true

/-- Span well-formedness a tree-sitter tree satisfies: every node's range
is a proper interval, children lie within their parent and come in
source order. -/
def WF : TSNode → Bool
  | .mk d cs =>
    decide (d.startB ≤ d.endB) &&
    cs.all (fun c => decide (d.startB ≤ c.startB) && decide (c.endB ≤ d.endB)) &&
    orderedSpans cs &&
    cs.attach.all (fun c => WF c.1)
termination_by t => sizeOf t
decreasing_by
  have := List.sizeOf_lt_of_mem c.2
  simp only [TSNode.mk.sizeOf_spec]
  omega

/-- Strong induction over the nested tree type. -/
def TSNode.inductionOn {P : TSNode → Prop} :
    ∀ (t : TSNode), (∀ d cs, (∀ c ∈ cs, P c) → P (.mk d cs)) → P t
  | .mk d cs, h => h d cs (fun c hc => TSNode.inductionOn c h)
termination_by t => sizeOf t
decreasing_by
  have := List.sizeOf_lt_of_mem hc
  simp only [TSNode.mk.sizeOf_spec]
  omega

theorem WF_parts {d : NodeData} {cs : List TSNode} (h : WF (.mk d cs) = true) :
    d.startB ≤ d.endB ∧ (∀ c ∈ cs, d.startB ≤ c.startB ∧ c.endB ≤ d.endB) ∧
    orderedSpans cs = true ∧ (∀ c ∈ cs, WF c = true) := by
  rw [WF] at h
  simp only [Bool.and_eq_true, List.all_eq_true, decide_eq_true_eq,
    List.mem_attach, true_implies, Subtype.forall] at h
  refine ⟨h.1.1.1, ?_, h.1.2, ?_⟩
  · intro c hc
    have := h.1.1.2 c hc
    simpa using this
  · intro c hc
    exact h.2 c hc

theorem WF_start_le_end {t : TSNode} (h : WF t = true) : t.startB ≤ t.endB := by
  cases t with
  | mk d cs => exact (WF_parts h).1

/-- The root itself is visited with an empty ancestor chain. -/
theorem visitAll_self (t : TSNode) : (t, ([] : List TSNode)) ∈ visitAll t := by
  cases t with
  | mk d cs =>
    rw [visitAll]
    exact List.mem_cons_self _ _

/-- A visit inside a child subtree lifts to the parent, appending the
parent to the ancestor chain. -/
theorem visitAll_child {t c : TSNode} {x : TSNode} {a : List TSNode}
    (hc : c ∈ t.children) (h : (x, a) ∈ visitAll c) :
    (x, a ++ [t]) ∈ visitAll t := by
  cases t with
  | mk d cs =>
    rw [visitAll]
    refine List.mem_cons_of_mem _ ?_
    rw [List.mem_map]
    refine ⟨(x, a), ?_, rfl⟩
    rw [List.mem_flatten]
    refine ⟨visitAll c, ?_, h⟩
    rw [List.mem_map]
    exact ⟨⟨c, hc⟩, List.mem_attach _ _, rfl⟩

/-- Every visit is either the root itself or a lifted visit of some child
subtree. -/
theorem visitAll_elim {t x : TSNode} {a : List TSNode}
    (h : (x, a) ∈ visitAll t) :
    (x = t ∧ a = []) ∨
      ∃ c ∈ t.children, ∃ a', a = a' ++ [t] ∧ (x, a') ∈ visitAll c := by
  cases t with
  | mk d cs =>
    rw [visitAll] at h
    rcases List.mem_cons.mp h with he | hm
    · left
      exact ⟨congrArg Prod.fst he, congrArg Prod.snd he⟩
    · right
      rw [List.mem_map] at hm
      obtain ⟨y, hy, hxy⟩ := hm
      rw [List.mem_flatten] at hy
      obtain ⟨l, hl, hyl⟩ := hy
      rw [List.mem_map] at hl
      obtain ⟨⟨c, hc⟩, _, hlc⟩ := hl
      subst hlc
      refine ⟨c, hc, y.2, ?_, ?_⟩
      · have h2 : y.2 ++ [TSNode.mk d cs] = a := congrArg Prod.snd hxy
        exact h2.symm
      · have hx1 : y.1 = x := congrArg Prod.fst hxy
        rw [← hx1]
        exact hyl

/-- A visited node is the traversal root or carries it in its chain. -/
theorem visitAll_root_mem {t x : TSNode} {a : List TSNode}
    (h : (x, a) ∈ visitAll t) : x = t ∨ t ∈ a := by
  rcases visitAll_elim h with ⟨he, _⟩ | ⟨c, _, a', ha, _⟩
  · exact Or.inl he
  · right
    rw [ha]
    exact List.mem_append_right _ (List.mem_singleton.mpr rfl)

/-- In a well-formed tree, every visited subtree is well-formed, lies
within the root's span, and lies within every ancestor's span. -/
theorem visitAll_span_facts : ∀ (t : TSNode), WF t = true →
    ∀ x a, (x, a) ∈ visitAll t →
      WF x = true ∧ t.startB ≤ x.startB ∧ x.endB ≤ t.endB ∧
        ∀ p ∈ a, p.startB ≤ x.startB ∧ x.endB ≤ p.endB := by
  intro t
  induction t using TSNode.inductionOn with
  | _ d cs ih =>
  intro hWF x a h
  rcases visitAll_elim h with ⟨he, ha⟩ | ⟨c, hc, a', ha, hmem⟩
  · subst he
    subst ha
    exact ⟨hWF, le_refl _, le_refl _, by simp⟩
  · obtain ⟨_, hbounds, _, hwfc⟩ := WF_parts hWF
    have hcs : c ∈ cs := by simpa using hc
    have hcb := hbounds c hcs
    have hres := ih c hcs (hwfc c hcs) x a' hmem
    subst ha
    refine ⟨hres.1, ?_, ?_, ?_⟩
    · exact le_trans hcb.1 hres.2.1
    · exact le_trans hres.2.2.1 hcb.2
    · intro p hp
      rcases List.mem_append.mp hp with hp' | hp'
      · exact hres.2.2.2 p hp'
      · rw [List.mem_singleton] at hp'
        subst hp'
        exact ⟨le_trans hcb.1 hres.2.1, le_trans hres.2.2.1 hcb.2⟩

/-- Ordered spans whose elements are proper intervals are pairwise
ordered. -/
theorem orderedSpans_pairwise {cs : List TSNode} (hord : orderedSpans cs = true)
    (hse : ∀ c ∈ cs, c.startB ≤ c.endB) :
    cs.Pairwise (fun a b => a.endB ≤ b.startB) := by
  induction cs with
  | nil => exact List.Pairwise.nil
  | cons a tl ih =>
    cases tl with
    | nil => simp
    | cons b rest =>
      rw [orderedSpans] at hord
      have h1 : a.endB ≤ b.startB := by
        have := (Bool.and_eq_true _ _).mp hord
        simpa using this.1
      have h2 : orderedSpans (b :: rest) = true :=
        ((Bool.and_eq_true _ _).mp hord).2
      have hp := ih h2 (fun c hc => hse c (List.mem_cons_of_mem _ hc))
      refine List.Pairwise.cons ?_ hp
      intro y hy
      rcases List.mem_cons.mp hy with he | hm
      · subst he; exact h1
      · have hby : b.endB ≤ y.startB := by
          rcases hp with _ | ⟨hb, _⟩
          exact hb y hm
        have hbse : b.startB ≤ b.endB := hse b (by simp)
        omega

/-- Separation: in a well-formed tree, two visited nodes whose spans
intersect are related by ancestry — one of them appears in the other's
chain (or they are the same node). -/
theorem visitAll_sep (t : TSNode) (hWF : WF t = true) :
    ∀ x ax y ay, (x, ax) ∈ visitAll t → (y, ay) ∈ visitAll t →
      Overlap x.startB x.endB y.startB y.endB →
      x ∈ y :: ay ∨ y ∈ x :: ax := by
  induction t using TSNode.inductionOn with
  | _ d cs ih =>
  intro x ax y ay hx hy hov
  rcases visitAll_elim hx with ⟨hex, _⟩ | ⟨c, hc, ax', hax, hmx⟩
  · -- x is the root
    subst hex
    rcases visitAll_root_mem hy with hey | hty
    · exact Or.inl (by rw [hey]; exact List.mem_cons_self _ _)
    · exact Or.inl (List.mem_cons_of_mem _ hty)
  · rcases visitAll_elim hy with ⟨hey, _⟩ | ⟨c', hc', ay', hay, hmy⟩
    · -- y is the root, x sits below it
      subst hey
      right
      subst hax
      exact List.mem_cons_of_mem _ (List.mem_append_right _ (by simp))
    · -- both sit in child subtrees
      obtain ⟨_, hbounds, hord, hwfc⟩ := WF_parts hWF
      have hcs : c ∈ cs := by simpa using hc
      have hcs' : c' ∈ cs := by simpa using hc'
      obtain ⟨i, hi, hci⟩ := List.mem_iff_getElem.mp hcs
      obtain ⟨j, hj, hcj⟩ := List.mem_iff_getElem.mp hcs'
      by_cases hij : i = j
      · -- same child subtree: recurse
        subst hij
        have hcc : c = c' := hci.symm.trans hcj
        subst hcc
        rcases ih c hcs (hwfc c hcs) x ax' y ay' hmx hmy hov with h | h
        · left
          subst hay
          rcases List.mem_cons.mp h with he | hm
          · rw [he]; exact List.mem_cons_self _ _
          · exact List.mem_cons_of_mem _ (List.mem_append_left _ hm)
        · right
          subst hax
          rcases List.mem_cons.mp h with he | hm
          · rw [he]; exact List.mem_cons_self _ _
          · exact List.mem_cons_of_mem _ (List.mem_append_left _ hm)
      · -- different children: spans are disjoint, contradiction
        exfalso
        have hpw := orderedSpans_pairwise hord
          (fun cc hcc => WF_start_le_end (hwfc cc hcc))
        rw [List.pairwise_iff_getElem] at hpw
        have hxc := visitAll_span_facts c (hwfc c hcs) x ax' hmx
        have hyc := visitAll_span_facts c' (hwfc c' hcs') y ay' hmy
        unfold Overlap at hov
        rcases Nat.lt_or_ge i j with hlt | hge
        · have := hpw i j hi hj hlt
          rw [hci, hcj] at this
          have h1 := hxc.2.2.1
          have h2 := hyc.2.1
          omega
        · have hlt' : j < i := Nat.lt_of_le_of_ne hge (fun he => hij he.symm)
          have := hpw j i hj hi hlt'
          rw [hci, hcj] at this
          have h1 := hyc.2.2.1
          have h2 := hxc.2.1
          omega

/-- A node visited outside any comment, and a comment node whose range
intersects a sub-interval of the node's span: the comment must lie within
the node's span (it can be neither the node, nor an ancestor, nor a
separated subtree). -/
theorem comment_disjoint {root : TSNode} (hWF : WF root = true)
    {n : TSNode} {ancn : List TSNode} (hn : (n, ancn) ∈ visitAll root)
    (hnc : is_in_comment n ancn = false)
    {c : TSNode} {ancc : List TSNode} (hc : (c, ancc) ∈ visitAll root)
    (hck : c.kind = "comment")
    {i j : Nat} (hi : n.startB ≤ i) (hj : j ≤ n.endB)
    (hov : Overlap i j c.startB c.endB) :
    n.startB ≤ c.startB ∧ c.endB ≤ n.endB := by
  have hov' : Overlap n.startB n.endB c.startB c.endB := by
    unfold Overlap at hov ⊢
    omega
  have hnck : n.kind ≠ "comment" ∧ ∀ p ∈ ancn, p.kind ≠ "comment" := by
    unfold is_in_comment at hnc
    rcases Bool.or_eq_false_iff.mp hnc with ⟨h1, h2⟩
    constructor
    · intro he
      rw [he] at h1
      simp at h1
    · intro p hp he
      have := List.any_eq_false.mp h2 p hp
      rw [he] at this
      simp at this
  rcases visitAll_sep root hWF n ancn c ancc hn hc hov' with h | h
  · rcases List.mem_cons.mp h with he | hanc
    · exact absurd (he ▸ hck) hnck.1
    · exact (visitAll_span_facts root hWF c ancc hc).2.2.2 n hanc
  · rcases List.mem_cons.mp h with he | hanc
    · exact absurd (he ▸ hck) hnck.1
    · exact absurd hck (hnck.2 c hanc)

/-- The extracted slice is never longer than its nominal range. -/
theorem extract_length_le (s : List Char) (a b : Nat) :
    (extract s a b).length ≤ b - a := by
  unfold extract
  rw [List.length_take]
  omega

/-- A child of a well-formed node lies in its span and is well-formed. -/
theorem WF_child_facts {n c : TSNode} (hwf : WF n = true) (hc : c ∈ n.children) :
    n.startB ≤ c.startB ∧ c.endB ≤ n.endB ∧ WF c = true := by
  cases n with
  | mk d cs =>
    have hp := WF_parts hwf
    have hcs : c ∈ cs := by simpa using hc
    exact ⟨(hp.2.1 c hcs).1, (hp.2.1 c hcs).2, hp.2.2.2 c hcs⟩

/-- The matched node every C2 case needs: visited not-in-comment, with the
mutant's span inside its span. -/
def MatchedNode (root : TSNode) (m : PartialMutant) : Prop :=
  ∃ n ancn, (n, ancn) ∈ visitAll root ∧ is_in_comment n ancn = false ∧
    n.startB ≤ m.byte_offset ∧ m.byte_offset + m.old_text.length ≤ n.endB

theorem wrap_matched {root : TSNode} {source : List Char} {K : List String}
    {pre suf : List Char} {m : PartialMutant} (hWF : WF root = true)
    (h : m ∈ wrap root source K pre suf) : MatchedNode root m := by
  unfold wrap at h
  rw [List.mem_filterMap] at h
  obtain ⟨x, hx, hf⟩ := h
  unfold wrapAt at hf
  split at hf
  · rename_i hcond
    cases hf
    have hwfx := (visitAll_span_facts root hWF x.1 x.2 hx).1
    have hse := WF_start_le_end hwfx
    have hic : is_in_comment x.1 x.2 = false := by
      rcases Bool.and_eq_true .. |>.mp hcond with ⟨h1, _⟩
      rcases Bool.and_eq_true .. |>.mp h1 with ⟨_, h2⟩
      simpa using h2
    refine ⟨x.1, x.2, hx, hic, le_refl _, ?_⟩
    have := extract_length_le source x.1.startB x.1.endB
    show x.1.startB + (node_text source x.1).length ≤ x.1.endB
    unfold node_text
    omega
  · cases hf

theorem replace_matched {root : TSNode} {source : List Char} {K : List String}
    {rep : List Char} {flt : TSNode → List Char → Bool} {m : PartialMutant}
    (hWF : WF root = true)
    (h : m ∈ Mewt.replace root source K rep flt) : MatchedNode root m := by
  unfold Mewt.replace at h
  rw [List.mem_filterMap] at h
  obtain ⟨x, hx, hf⟩ := h
  unfold replaceAt at hf
  split at hf
  · rename_i hcond
    cases hf
    have hwfx := (visitAll_span_facts root hWF x.1 x.2 hx).1
    have hse := WF_start_le_end hwfx
    have hic : is_in_comment x.1 x.2 = false := by
      rcases Bool.and_eq_true .. |>.mp hcond with ⟨h1, _⟩
      rcases Bool.and_eq_true .. |>.mp h1 with ⟨h2, _⟩
      rcases Bool.and_eq_true .. |>.mp h2 with ⟨_, h3⟩
      simpa using h3
    refine ⟨x.1, x.2, hx, hic, le_refl _, ?_⟩
    have := extract_length_le source x.1.startB x.1.endB
    show x.1.startB + (node_text source x.1).length ≤ x.1.endB
    unfold node_text
    omega
  · cases hf

theorem conditionMutant_matched {root : TSNode} {source rep : List Char}
    {n cond : TSNode} {anc : List TSNode}
    (hWF : WF root = true) (hx : (n, anc) ∈ visitAll root)
    (hic : is_in_comment n anc = false) (hcond : cond ∈ n.children) :
    MatchedNode root (conditionMutant source rep cond) := by
  have hwfn := (visitAll_span_facts root hWF n anc hx).1
  obtain ⟨hb1, hb2, hwfc⟩ := WF_child_facts hwfn hcond
  have hse := WF_start_le_end hwfc
  refine ⟨n, anc, hx, hic, hb1, ?_⟩
  have := extract_length_le source cond.startB cond.endB
  show cond.startB + (node_text source cond).length ≤ n.endB
  unfold node_text
  omega

theorem replace_condition_matched {root : TSNode} {source : List Char}
    {k fld : String} {kws : List String} {rep : List Char} {m : PartialMutant}
    (hWF : WF root = true)
    (h : m ∈ replace_condition root source k fld kws rep) : MatchedNode root m := by
  unfold replace_condition at h
  rw [List.mem_filterMap] at h
  obtain ⟨x, hx, hf⟩ := h
  unfold replaceConditionAt at hf
  split at hf
  · rename_i hcond
    have hic : is_in_comment x.1 x.2 = false := by
      rcases Bool.and_eq_true .. |>.mp hcond with ⟨_, h2⟩
      simpa using h2
    split at hf
    · rename_i cond hfind
      cases hf
      have hmem : cond ∈ x.1.children := by
        unfold child_by_field_name at hfind
        exact List.mem_of_find?_eq_some hfind
      exact conditionMutant_matched hWF hx hic hmem
    · split at hf
      · rename_i cond hfind
        split at hf
        · cases hf
          have hmem : cond ∈ x.1.children := by
            unfold first_named_child_after_keyword at hfind
            exact List.mem_of_find?_eq_some hfind
          exact conditionMutant_matched hWF hx hic hmem
        · cases hf
      · cases hf
  · cases hf

theorem swap_args_matched {root : TSNode} {source : List Char} {K : List String}
    {fld : String} {m : PartialMutant} (hWF : WF root = true)
    (h : m ∈ swap_args root source K fld) : MatchedNode root m := by
  unfold swap_args at h
  rw [List.mem_flatMap] at h
  obtain ⟨x, hx, hm⟩ := h
  unfold swapArgsAt at hm
  split at hm
  · rename_i hcond
    have hic : is_in_comment x.1 x.2 = false := by
      rcases Bool.and_eq_true .. |>.mp hcond with ⟨_, h2⟩
      simpa using h2
    split at hm
    · rename_i args_node hfind
      simp only [] at hm
      split at hm
      · rw [List.mem_map] at hm
        obtain ⟨ab, hab, hab2⟩ := hm
        have hargs : args_node ∈ x.1.children := by
          unfold child_by_field_name at hfind
          exact List.mem_of_find?_eq_some hfind
        have hwfn := (visitAll_span_facts root hWF x.1 x.2 hx).1
        obtain ⟨hn1, hn2, hwfa⟩ := WF_child_facts hwfn hargs
        have hzip := List.of_mem_zip hab
        have hamem : ab.1 ∈ args_node.children := by
          have := hzip.1
          rw [List.mem_filter] at this
          exact this.1
        have hbmem : ab.2 ∈ args_node.children := by
          have hbt : ab.2 ∈ (args_node.children.filter
              (fun c => c.kind != "(" && c.kind != ")" && c.kind != ",")) :=
            List.mem_of_mem_tail hzip.2
          rw [List.mem_filter] at hbt
          exact hbt.1
        obtain ⟨ha1, ha2, hwfa1⟩ := WF_child_facts hwfa hamem
        obtain ⟨hb1, hb2, _⟩ := WF_child_facts hwfa hbmem
        have hase := WF_start_le_end hwfa1
        subst hab2
        refine ⟨x.1, x.2, hx, hic, ?_, ?_⟩
        · show x.1.startB ≤ ab.1.startB
          omega
        · show ab.1.startB + (extract source ab.1.startB ab.2.endB).length ≤ x.1.endB
          have := extract_length_le source ab.1.startB ab.2.endB
          omega
      · cases hm
    · cases hm
  · cases hm

theorem shuffle_matched {root : TSNode} {source : List Char} {K : List String}
    {opts : List (List Char)} {mode : Bool} {m : PartialMutant}
    (hWF : WF root = true)
    (h : m ∈ shuffle_impl root source K opts mode) : MatchedNode root m := by
  unfold shuffle_impl at h
  rw [List.mem_flatMap] at h
  obtain ⟨x, hx, hm⟩ := h
  split at hm
  · rename_i hcond
    have hic : is_in_comment x.1 x.2 = false := by
      rcases Bool.and_eq_true .. |>.mp hcond with ⟨_, h2⟩
      simpa using h2
    have hwfn := (visitAll_span_facts root hWF x.1 x.2 hx).1
    split at hm
    · unfold shuffleFullAt at hm
      rw [List.mem_flatMap] at hm
      obtain ⟨rep, _, hm⟩ := hm
      simp only [] at hm
      split at hm
      · split at hm
        · rw [List.mem_singleton] at hm
          subst hm
          have hse := WF_start_le_end hwfn
          refine ⟨x.1, x.2, hx, hic, le_refl _, ?_⟩
          have := extract_length_le source x.1.startB x.1.endB
          show x.1.startB + (node_text source x.1).length ≤ x.1.endB
          unfold node_text
          omega
        · cases hm
      · cases hm
    · unfold shuffleTokensAt at hm
      rw [List.mem_flatMap] at hm
      obtain ⟨child, hchild, hm⟩ := hm
      simp only [] at hm
      split at hm
      · rw [List.mem_filterMap] at hm
        obtain ⟨rep, _, hm⟩ := hm
        split at hm
        · cases hm
          obtain ⟨hc1, hc2, hwfc⟩ := WF_child_facts hwfn hchild
          have hse := WF_start_le_end hwfc
          refine ⟨x.1, x.2, hx, hic, hc1, ?_⟩
          have := extract_length_le source child.startB child.endB
          show child.startB + (node_text source child).length ≤ x.1.endB
          unfold node_text
          omega
        · cases hm
      · cases hm
  · cases hm

/-- The tree of `a; /* hi */`: an expression statement whose span contains
a trailing comment child. -/
def commentStmtSource : List Char := "a; /* hi */".toList

def commentStmtTree : TSNode :=
  branch "source_file" 0 11
    [branch "expression_statement" 0 11
      [leaf "identifier" 0 1, leaf ";" 1 2, leaf "comment" 3 11]]

/-- C2 counterexample: `wrap` on a statement containing a comment emits a
mutant whose span `[0, 11)` intersects the comment node's range `[3, 11)` —
the primitives only exclude nodes that are comments or inside one, not
nodes that contain one. -/
theorem mewt_C2_counterexample :
    ∃ m ∈ wrap commentStmtTree commentStmtSource ["expression_statement"]
        "/* ".toList " */".toList,
      ∃ x ∈ visitAll commentStmtTree, x.1.kind = "comment" ∧
        Overlap m.byte_offset (m.byte_offset + m.old_text.length)
          x.1.startB x.1.endB := by
  simp +decide [wrap, wrapAt, visitAll, commentStmtTree, commentStmtSource,
    leaf, branch, is_in_comment, has_ancestor_with_kind, node_text, extract,
    calculate_line_offset, Overlap, TSNode.kind, TSNode.startB, TSNode.endB,
    TSNode.children, TSNode.data]

/-- C2 amended.  For every span-well-formed parse tree and every partial
mutant any pattern primitive emits, the mutant arises from a matched node
that is neither a comment nor inside one and whose span contains the
mutant's span; consequently any `comment` node whose byte range intersects
the mutant's span lies wholly within that matched node's span (a comment
inside the mutated region — as in the counterexample — is the only way a
mutant's span can meet a comment; a mutation is never placed inside a
comment). -/
theorem mewt_C2_comment_containment {root : TSNode} {source : List Char}
    {m : PartialMutant} (hWF : WF root = true)
    (h : (∃ K pre suf, m ∈ wrap root source K pre suf) ∨
         (∃ K rep flt, m ∈ Mewt.replace root source K rep flt) ∨
         (∃ k fld kws rep, m ∈ replace_condition root source k fld kws rep) ∨
         (∃ K fld, m ∈ swap_args root source K fld) ∨
         (∃ K opts mode, m ∈ shuffle_impl root source K opts mode)) :
    ∃ n ancn, (n, ancn) ∈ visitAll root ∧ is_in_comment n ancn = false ∧
      n.startB ≤ m.byte_offset ∧ m.byte_offset + m.old_text.length ≤ n.endB ∧
      ∀ c ancc, (c, ancc) ∈ visitAll root → c.kind = "comment" →
        Overlap m.byte_offset (m.byte_offset + m.old_text.length)
          c.startB c.endB →
        n.startB ≤ c.startB ∧ c.endB ≤ n.endB := by
  have hmn : MatchedNode root m := by
    rcases h with ⟨K, pre, suf, h⟩ | ⟨K, rep, flt, h⟩ | ⟨k, fld, kws, rep, h⟩ |
      ⟨K, fld, h⟩ | ⟨K, opts, mode, h⟩
    · exact wrap_matched hWF h
    · exact replace_matched hWF h
    · exact replace_condition_matched hWF h
    · exact swap_args_matched hWF h
    · exact shuffle_matched hWF h
  obtain ⟨n, ancn, hmem, hnc, h1, h2⟩ := hmn
  exact ⟨n, ancn, hmem, hnc, h1, h2, fun c ancc hcm hck hov =>
    comment_disjoint hWF hmem hnc hcm hck h1 h2 hov⟩

/-- C2 witness for the amended claim, at the counterexample's own tree: the
wrapped statement is the matched node, and the contained comment satisfies
the containment bound. -/
theorem mewt_C2_witness :
    ∃ n ancn, (n, ancn) ∈ visitAll commentStmtTree ∧
      is_in_comment n ancn = false ∧
      n.startB ≤ (0 : Nat) ∧ 0 + ("a; /* hi */".toList).length ≤ n.endB ∧
      ∀ c ancc, (c, ancc) ∈ visitAll commentStmtTree → c.kind = "comment" →
        Overlap 0 (0 + ("a; /* hi */".toList).length) c.startB c.endB →
        n.startB ≤ c.startB ∧ c.endB ≤ n.endB :=
  @mewt_C2_comment_containment commentStmtTree commentStmtSource
    { byte_offset := 0, line_offset := 0,
      old_text := "a; /* hi */".toList,
      new_text := "/* ".toList ++ ("a; /* hi */".toList ++ " */".toList) }
    (by
      simp +decide [WF, orderedSpans, commentStmtTree, leaf, branch,
        TSNode.startB, TSNode.endB, TSNode.data])
    (Or.inl ⟨["expression_statement"], "/* ".toList, " */".toList, by
      simp +decide [wrap, wrapAt, visitAll, commentStmtTree, commentStmtSource,
        leaf, branch, is_in_comment, has_ancestor_with_kind, node_text, extract,
        calculate_line_offset, TSNode.kind, TSNode.startB, TSNode.endB,
        TSNode.children, TSNode.data]⟩)

end Mewt
